import Mathlib

/-!
Verification of the natural-language specification of
`src/prefect/engine/executors/sync.py` (the `SynchronousExecutor` backend)
against a shallow embedding of its code.

The executor is a thin wrapper over the dask library:
`submit` wraps a call as a `dask.delayed` thunk, `map` builds a `dask.bag`
pipeline over the upstream states, and `wait` forces the computation with a
fixed quadruple `dask.compute` nesting.  The embedding models dask values
as the inductive `Val`: delayed thunks carry their eventual outcome
extensionally (the stored payload is revealed only when a compute round
runs the node), and bag pipelines are represented syntactically by the
three constructors the source builds (`from_delayed` over `state_to_list`,
the `unpack_dict_to_bag` zip stage, and the final elementwise `fn` stage).
Python lists are cons chains (`nilV`/`consV`); `listV` injects Lean lists.
One `dask.compute` round (`computeVal`) runs every delayed node reachable
through the collection structure and materializes bags; payloads that are
themselves delayed survive to the next round, exactly as in dask.
Traces of executed delayed-node ids instrument re-execution claims.
-/

namespace PrefectSync

/-- An Edge identifies a dependency and carries the `mapped` flag
(`prefect.core.edge.Edge` as used by `SynchronousExecutor.map`). -/
structure Edge where
  key : Nat
  mapped : Bool
deriving DecidableEq, Repr

/-- Python-level errors relevant to the executor, together with the error
classes named by the specification taxonomy (which do not occur in the
source, but are needed to state the claims about them). -/
inductive PyErr where
  | assertionError
  | valueError (msg : String)
  | typeError (msg : String)
  | submissionError
  | alignmentError
  | executionTimeout
  | taskExecutionError (cause : PyErr)
deriving DecidableEq, Repr

/-- Dask-level values as manipulated by `SynchronousExecutor`.
`delayedOk`/`delayedErr` model a `dask.delayed` node whose thunk, when run,
returns the stored value or raises the stored error.  The three bag
constructors model the lazy `dask.bag` collections the source builds:
`bagS2L id v` is `dask.bag.from_delayed(dask.delayed(state_to_list)(v))`,
`bagUnpack values keys` is `dask.bag.map(unpack_dict_to_bag, *values, keys=keys)`,
`bagFn fid args inner` is `dask.bag.map(fn, *args, upstream_states=inner)`
with `fn` referenced through a function environment. -/
inductive Val where
  | vnone
  | int (n : Int)
  | str (s : String)
  | edgeV (e : Edge)
  | pair (a b : Val)
  | nilV
  | consV (hd tl : Val)
  | delayedOk (id : Nat) (v : Val)
  | delayedErr (id : Nat) (e : PyErr)
  | bagS2L (id : Nat) (v : Val)
  | bagUnpack (values : Val) (keys : List Edge)
  | bagFn (fid : Nat) (args : Val) (inner : Val)
deriving DecidableEq, Repr

/-- Inject a Lean list of values as a Python-style list value. -/
def listV : List Val → Val
  | [] => .nilV
  | x :: xs => .consV x (listV xs)

/-- Function environment: interprets the function identifiers stored in
`bagFn` nodes.  A call receives the positional arguments and the
per-element `upstream_states` structure and returns a value or raises. -/
def FEnv : Type := Nat → Val → Val → Except PyErr Val

/-- True exactly on dask bag values (`isinstance(v, dask.bag.Bag)`). -/
def isBag : Val → Bool
  | .bagS2L _ _ => true
  | .bagUnpack _ _ => true
  | .bagFn _ _ _ => true
  | _ => false

/-- Modelled from the spec: `state_to_list` from `prefect.utilities.executors`
is imported by the source but its definition is not under `src/`.  Spec
section 4.1 step 1: a list is pulled apart into its elements preserving
order; a single item is wrapped as a one-element sequence. -/
def state_to_list : Val → List Val
  | .nilV => []
  | .consV h t => h :: state_to_list t
  | v => [v]

/-- Modelled from the spec: `unpack_dict_to_bag` from
`prefect.utilities.executors` is imported by the source but not under
`src/`.  Spec section 4.1 step 3: each produced element is a
dictionary-like structure keyed by Edge, pairing each key with the
corresponding per-element value. -/
def unpack_dict_to_bag (values : List Val) (keys : List Edge) : Val :=
  listV (List.zipWith (fun k v => Val.pair (.edgeV k) v) keys values)

/-- One argument column of the `unpack_dict_to_bag` zip stage: a bag
argument contributes a sequence that is zipped elementwise, any other
argument is broadcast whole (dask.bag.map semantics). -/
inductive Col where
  | single (v : Val)
  | seq (xs : Val)
deriving DecidableEq, Repr

/-- Length of a cons-chain list value. -/
def lenV : Val → Nat
  | .consV _ t => lenV t + 1
  | _ => 0

/-- Index into a cons-chain list value. -/
def atV : Val → Nat → Val
  | .consV h _, 0 => h
  | .consV _ t, n + 1 => atV t n
  | _, _ => .vnone

/-- The lengths of the sequence (bag-derived) columns. -/
def seqLens : List Col → List Nat
  | [] => []
  | .single _ :: rest => seqLens rest
  | .seq xs :: rest => lenV xs :: seqLens rest

/-- The zip stage of `dask.bag.map(unpack_dict_to_bag, *values, keys=keys)`:
all bag-derived columns must have equal length `n`; element `i` pairs each
key with the broadcast value or the `i`-th entry of its sequence. -/
def zipCols (keys : List Edge) (cols : List Col) : Except PyErr Val :=
  match seqLens cols with
  | [] => .error (.typeError "at least one argument must be a Bag")
  | n :: rest =>
    if rest.all (fun m => m == n) then
      .ok (listV ((List.range n).map
        (fun i => unpack_dict_to_bag (cols.map (fun c => atV
          (match c with | .single v => .consV v .nilV | .seq xs => xs)
          (match c with | .single _ => 0 | .seq _ => i))) keys)))
    else .error (.valueError "unequal mapped sequence lengths")

/-- Apply the interpreted function elementwise over materialized bag
elements (the final stage of `dask.bag.map(fn, ...)`), failing fast. -/
def applyAll (fenv : FEnv) (fid : Nat) (args : Val) : Val → Except PyErr Val
  | .nilV => .ok .nilV
  | .consV x xs => do
    let r ← fenv fid args x
    let rs ← applyAll fenv fid args xs
    .ok (.consV r rs)
  | _ => .error (.typeError "bag elements are not a list")

mutual
/-- One round of `dask.compute`: traverses the collection structure, runs
every delayed node found there (substituting its payload, or raising its
stored error), and materializes bag pipelines into concrete lists.
Payloads that are themselves delayed are fresh values outside the computed
graph and survive to the next round.  Also returns the trace of
delayed-node ids executed during the round. -/
def computeVal (fenv : FEnv) : Val → Except PyErr (Val × List Nat)
  | .pair a b => do
    let (a2, ta) ← computeVal fenv a
    let (b2, tb) ← computeVal fenv b
    .ok (.pair a2 b2, ta ++ tb)
  | .consV h t => do
    let (h2, th) ← computeVal fenv h
    let (t2, tt) ← computeVal fenv t
    .ok (.consV h2 t2, th ++ tt)
  | .delayedOk id v => .ok (v, [id])
  | .delayedErr _ e => .error e
  | .bagS2L id v => do
    let (v2, t) ← computeVal fenv v
    .ok (listV (state_to_list v2), t ++ [id])
  | .bagUnpack values keys => do
    let (cols, t) ← materializeVals fenv values
    let elems ← zipCols keys cols
    .ok (elems, t)
  | .bagFn fid args inner => do
    let (elems, t) ← computeVal fenv inner
    let rs ← applyAll fenv fid args elems
    .ok (rs, t)
  | v => .ok (v, [])

/-- Materialize the argument list of the `unpack_dict_to_bag` map stage:
bag arguments are computed into sequences to be zipped, all other
arguments become broadcast columns. -/
def materializeVals (fenv : FEnv) : Val → Except PyErr (List Col × List Nat)
  | .nilV => .ok ([], [])
  | .consV v rest =>
    if isBag v then do
      let (xs, t) ← computeVal fenv v
      let (cs, ts) ← materializeVals fenv rest
      .ok (.seq xs :: cs, t ++ ts)
    else do
      let (cs, ts) ← materializeVals fenv rest
      .ok (.single v :: cs, ts)
  | _ => .error (.typeError "values are not a list")
end

/-- `SynchronousExecutor.submit(fn, *args, **kwargs)`:
returns `dask.delayed(fn)(*args, **kwargs)`, a lazy node whose thunk, when
later run by a compute round, yields the outcome of the call. -/
def submit (id : Nat) (r : Except PyErr Val) : Val :=
  match r with
  | .ok v => .delayedOk id v
  | .error e => .delayedErr id e

/-- The net effect on the upstream-state dictionary of building
`needs_bagging` and then `upstream_states.update(needs_bagging)`: every
entry whose edge is mapped and whose value is not already a dask bag is
replaced, in place, by
`dask.bag.from_delayed(dask.delayed(state_to_list)(v))`; all other entries
are untouched.  `bid` numbers the freshly created delayed nodes. -/
def updateBag (bid : Nat) : List (Edge × Val) → List (Edge × Val)
  | [] => []
  | (e, v) :: rest =>
    (if e.mapped && !(isBag v) then (e, Val.bagS2L bid v) else (e, v)) ::
      updateBag (bid + 1) rest

/-- `SynchronousExecutor.map(fn, *args, upstream_states, **kwargs)`:
asserts `upstream_states is not None`, converts mapped non-bag entries to
bags (mutating the dictionary in place), unpacks the updated dictionary
into `keys` and `values` (`zip(*items)` raises a ValueError on an empty
dictionary), and builds the lazy
`dask.bag.map(fn, *args, upstream_states=dask.bag.map(unpack_dict_to_bag, *values, keys=keys), **kwargs)`
pipeline (dask.bag.map requires at least one bag argument).  Returns the
lazy result together with the mutated dictionary the caller observes. -/
def mapE (fid : Nat) (args : Val) (upstream_states : Option (List (Edge × Val)))
    (bid : Nat) : Except PyErr (Val × List (Edge × Val)) :=
  match upstream_states with
  | none => .error .assertionError
  | some us =>
    let us2 := updateBag bid us
    match us2 with
    | [] => .error (.valueError "not enough values to unpack (expected 2, got 0)")
    | _ :: _ =>
      let keys := us2.map Prod.fst
      let values := us2.map Prod.snd
      if values.any isBag then
        .ok (.bagFn fid args (.bagUnpack (listV values) keys), us2)
      else
        .error (.typeError "at least one argument must be a Bag")

/-- `SynchronousExecutor.start()`:
`with dask.config.set(scheduler="synchronous") as cfg: yield cfg`.
The configuration state is the scheduler setting; the context manager
records the configuration on entry, runs the body under
`scheduler="synchronous"`, and its exit handler restores the recorded
previous configuration on every exit path, also when the body raises
(the body returns `Except.error`) and also when the body itself changed
the configuration. -/
def startE {α : Type} (cfg0 : Option String)
    (body : Option String → Except PyErr α × Option String) :
    Except PyErr α × Option String :=
  let saved := cfg0
  let entered : Option String := some "synchronous"
  let res := body entered
  (res.1, saved)

/-- `SynchronousExecutor.wait(futures, timeout)`:
`dask.compute(dask.compute(dask.compute(dask.compute(futures)[0])[0])[0])[0]`.
The `timeout` argument appears in the signature but is never used. -/
def wait (fenv : FEnv) (futures : Val) (timeout : Option Int) :
    Except PyErr (Val × List Nat) := do
  let (a, t1) ← computeVal fenv futures
  let (b, t2) ← computeVal fenv a
  let (c, t3) ← computeVal fenv b
  let (d, t4) ← computeVal fenv c
  .ok (d, t1 ++ t2 ++ t3 ++ t4)

/-- A value is fully resolved: it contains no pending or lazy wrapper
(no delayed node and no lazy bag) anywhere in its collection structure. -/
def noPendingB : Val → Bool
  | .pair a b => noPendingB a && noPendingB b
  | .consV h t => noPendingB h && noPendingB t
  | .delayedOk _ _ => false
  | .delayedErr _ _ => false
  | .bagS2L _ _ => false
  | .bagUnpack _ _ => false
  | .bagFn _ _ _ => false
  | _ => true

/-- A value contains no lazy bag anywhere, also not inside the payload of
a delayed node. -/
def bagFreeB : Val → Bool
  | .pair a b => bagFreeB a && bagFreeB b
  | .consV h t => bagFreeB h && bagFreeB t
  | .delayedOk _ v => bagFreeB v
  | .delayedErr _ _ => true
  | .bagS2L _ _ => false
  | .bagUnpack _ _ => false
  | .bagFn _ _ _ => false
  | _ => true

/-- Nesting depth of pending wrappers: how many compute rounds are needed
before no delayed node remains (for bag-free values). -/
def pendDepth : Val → Nat
  | .pair a b => max (pendDepth a) (pendDepth b)
  | .consV h t => max (pendDepth h) (pendDepth t)
  | .delayedOk _ v => pendDepth v + 1
  | .delayedErr _ _ => 1
  | .bagS2L _ _ => 1
  | .bagUnpack _ _ => 1
  | .bagFn _ _ _ => 1
  | _ => 0

/-- True exactly on the taskExecutionError class of the spec taxonomy. -/
def isTaskExecError : PyErr → Bool
  | .taskExecutionError _ => true
  | _ => false

/-- A trivial function environment used for concrete instances. -/
def fenvTriv : FEnv := fun _ _ _ => .ok .vnone

theorem computeVal_noPending (fenv : FEnv) (v : Val) (h : noPendingB v = true) :
    computeVal fenv v = .ok (v, []) := by
  match v with
  | .vnone => rfl
  | .int n => rfl
  | .str s => rfl
  | .edgeV e => rfl
  | .nilV => rfl
  | .pair a b =>
    simp only [noPendingB, Bool.and_eq_true] at h
    have ha := computeVal_noPending fenv a h.1
    have hb := computeVal_noPending fenv b h.2
    simp [computeVal, ha, hb, Bind.bind, Except.bind]
  | .consV a b =>
    simp only [noPendingB, Bool.and_eq_true] at h
    have ha := computeVal_noPending fenv a h.1
    have hb := computeVal_noPending fenv b h.2
    simp [computeVal, ha, hb, Bind.bind, Except.bind]
  | .delayedOk id v => simp [noPendingB] at h
  | .delayedErr id e => simp [noPendingB] at h
  | .bagS2L id v => simp [noPendingB] at h
  | .bagUnpack vs ks => simp [noPendingB] at h
  | .bagFn f a i => simp [noPendingB] at h

theorem computeVal_step (fenv : FEnv) (v w : Val) (t : List Nat)
    (hb : bagFreeB v = true) (hc : computeVal fenv v = .ok (w, t)) :
    bagFreeB w = true ∧ pendDepth w ≤ pendDepth v - 1 := by
  match v with
  | .vnone =>
    simp only [computeVal, Except.ok.injEq, Prod.mk.injEq] at hc
    obtain ⟨rfl, rfl⟩ := hc
    exact ⟨rfl, by simp [pendDepth]⟩
  | .int n =>
    simp only [computeVal, Except.ok.injEq, Prod.mk.injEq] at hc
    obtain ⟨rfl, rfl⟩ := hc
    exact ⟨rfl, by simp [pendDepth]⟩
  | .str s =>
    simp only [computeVal, Except.ok.injEq, Prod.mk.injEq] at hc
    obtain ⟨rfl, rfl⟩ := hc
    exact ⟨rfl, by simp [pendDepth]⟩
  | .edgeV e =>
    simp only [computeVal, Except.ok.injEq, Prod.mk.injEq] at hc
    obtain ⟨rfl, rfl⟩ := hc
    exact ⟨rfl, by simp [pendDepth]⟩
  | .nilV =>
    simp only [computeVal, Except.ok.injEq, Prod.mk.injEq] at hc
    obtain ⟨rfl, rfl⟩ := hc
    exact ⟨rfl, by simp [pendDepth]⟩
  | .delayedOk id u =>
    simp only [computeVal, Except.ok.injEq, Prod.mk.injEq] at hc
    obtain ⟨rfl, rfl⟩ := hc
    simp only [bagFreeB] at hb
    exact ⟨hb, by simp [pendDepth]⟩
  | .delayedErr id e =>
    simp only [computeVal] at hc
    exact absurd hc (by simp)
  | .bagS2L id u => simp [bagFreeB] at hb
  | .bagUnpack vs ks => simp [bagFreeB] at hb
  | .bagFn f a i => simp [bagFreeB] at hb
  | .pair a b =>
    simp only [bagFreeB, Bool.and_eq_true] at hb
    simp only [computeVal] at hc
    cases hca : computeVal fenv a with
    | error e => rw [hca] at hc; simp [Bind.bind, Except.bind] at hc
    | ok pa =>
      obtain ⟨a2, ta⟩ := pa
      rw [hca] at hc
      cases hcb : computeVal fenv b with
      | error e => rw [hcb] at hc; simp [Bind.bind, Except.bind] at hc
      | ok pb =>
        obtain ⟨b2, tb⟩ := pb
        rw [hcb] at hc
        simp only [Bind.bind, Except.bind, Except.ok.injEq, Prod.mk.injEq] at hc
        obtain ⟨rfl, rfl⟩ := hc
        obtain ⟨ha1, ha2⟩ := computeVal_step fenv a a2 ta hb.1 hca
        obtain ⟨hb1, hb2⟩ := computeVal_step fenv b b2 tb hb.2 hcb
        refine ⟨by simp [bagFreeB, ha1, hb1], ?_⟩
        simp only [pendDepth]
        omega
  | .consV a b =>
    simp only [bagFreeB, Bool.and_eq_true] at hb
    simp only [computeVal] at hc
    cases hca : computeVal fenv a with
    | error e => rw [hca] at hc; simp [Bind.bind, Except.bind] at hc
    | ok pa =>
      obtain ⟨a2, ta⟩ := pa
      rw [hca] at hc
      cases hcb : computeVal fenv b with
      | error e => rw [hcb] at hc; simp [Bind.bind, Except.bind] at hc
      | ok pb =>
        obtain ⟨b2, tb⟩ := pb
        rw [hcb] at hc
        simp only [Bind.bind, Except.bind, Except.ok.injEq, Prod.mk.injEq] at hc
        obtain ⟨rfl, rfl⟩ := hc
        obtain ⟨ha1, ha2⟩ := computeVal_step fenv a a2 ta hb.1 hca
        obtain ⟨hb1, hb2⟩ := computeVal_step fenv b b2 tb hb.2 hcb
        refine ⟨by simp [bagFreeB, ha1, hb1], ?_⟩
        simp only [pendDepth]
        omega

theorem noPending_of_depth_zero (v : Val) (hb : bagFreeB v = true)
    (hd : pendDepth v = 0) : noPendingB v = true := by
  match v with
  | .vnone => rfl
  | .int n => rfl
  | .str s => rfl
  | .edgeV e => rfl
  | .nilV => rfl
  | .pair a b =>
    simp only [bagFreeB, Bool.and_eq_true] at hb
    simp only [pendDepth, Nat.max_eq_zero_iff] at hd
    simp only [noPendingB, Bool.and_eq_true]
    exact ⟨noPending_of_depth_zero a hb.1 hd.1, noPending_of_depth_zero b hb.2 hd.2⟩
  | .consV a b =>
    simp only [bagFreeB, Bool.and_eq_true] at hb
    simp only [pendDepth, Nat.max_eq_zero_iff] at hd
    simp only [noPendingB, Bool.and_eq_true]
    exact ⟨noPending_of_depth_zero a hb.1 hd.1, noPending_of_depth_zero b hb.2 hd.2⟩
  | .delayedOk id u => simp [pendDepth] at hd
  | .delayedErr id e => simp [pendDepth] at hd
  | .bagS2L id u => simp [bagFreeB] at hb
  | .bagUnpack vs ks => simp [bagFreeB] at hb
  | .bagFn f a i => simp [bagFreeB] at hb

/-- C1 (amended): wait resolves nested pending computations only up to the
fixed nesting depth four of its quadruple dask.compute call: for every
bag-free iterable of futures whose pending-wrapper nesting depth is at
most 4, every value wait returns successfully contains no remaining
pending wrapper. -/
theorem C1_wait_resolves_up_to_depth_four (fenv : FEnv) (v : Val)
    (t : Option Int) (w : Val) (tr : List Nat) (hb : bagFreeB v = true)
    (hd : pendDepth v ≤ 4) (hw : wait fenv v t = .ok (w, tr)) :
    noPendingB w = true := by
  simp only [wait] at hw
  cases h1 : computeVal fenv v with
  | error e => rw [h1] at hw; simp [Bind.bind, Except.bind] at hw
  | ok p1 =>
    obtain ⟨a, t1⟩ := p1
    rw [h1] at hw
    simp only [Bind.bind, Except.bind] at hw
    cases h2 : computeVal fenv a with
    | error e => rw [h2] at hw; simp [Bind.bind, Except.bind] at hw
    | ok p2 =>
      obtain ⟨b, t2⟩ := p2
      rw [h2] at hw
      simp only [Bind.bind, Except.bind] at hw
      cases h3 : computeVal fenv b with
      | error e => rw [h3] at hw; simp [Bind.bind, Except.bind] at hw
      | ok p3 =>
        obtain ⟨c, t3⟩ := p3
        rw [h3] at hw
        simp only [Bind.bind, Except.bind] at hw
        cases h4 : computeVal fenv c with
        | error e => rw [h4] at hw; simp [Bind.bind, Except.bind] at hw
        | ok p4 =>
          obtain ⟨d, t4⟩ := p4
          rw [h4] at hw
          simp only [Bind.bind, Except.bind, Except.ok.injEq, Prod.mk.injEq] at hw
          obtain ⟨rfl, rfl⟩ := hw
          obtain ⟨hb1, hd1⟩ := computeVal_step fenv v a t1 hb h1
          obtain ⟨hb2, hd2⟩ := computeVal_step fenv a b t2 hb1 h2
          obtain ⟨hb3, hd3⟩ := computeVal_step fenv b c t3 hb2 h3
          obtain ⟨hb4, hd4⟩ := computeVal_step fenv c d t4 hb3 h4
          exact noPending_of_depth_zero d hb4 (by omega)

/-- C1 witness: a 4-deep chain of nested delayed results is fully
resolved by wait. -/
theorem C1_witness : noPendingB (listV [Val.int 7]) = true :=
  C1_wait_resolves_up_to_depth_four fenvTriv
    (listV [.delayedOk 1 (.delayedOk 2 (.delayedOk 3 (.delayedOk 4 (.int 7))))])
    none (listV [Val.int 7]) [1, 2, 3, 4] rfl (by decide) rfl

/-- C1 counterexample: on a 5-deep chain of nested delayed results, wait
returns a value that still contains a pending wrapper, so wait does not
resolve arbitrarily deep nesting to a fixed point. -/
theorem C1_counterexample :
    wait fenvTriv
      (listV [.delayedOk 1 (.delayedOk 2 (.delayedOk 3 (.delayedOk 4
        (.delayedOk 5 (.int 7)))))]) none
      = .ok (listV [.delayedOk 5 (.int 7)], [1, 2, 3, 4]) ∧
    noPendingB (listV [.delayedOk 5 (.int 7)]) = false :=
  ⟨rfl, rfl⟩

/-- C2: the timeout argument of wait is accepted but never used: the
result of wait is identical for every timeout value, so a computation
exceeding the deadline can never fail with an ExecutionTimeout. -/
theorem C2_timeout_ignored (fenv : FEnv) (v : Val) (t1 t2 : Option Int) :
    wait fenv v t1 = wait fenv v t2 := rfl

/-- C3 (amended): forcing via wait a Future wrapping a function that
raised propagates the original raw exception unchanged; no
TaskExecutionError wrapper is introduced. -/
theorem C3_raw_exception_propagates (fenv : FEnv) (id : Nat) (e : PyErr)
    (t : Option Int) :
    wait fenv (listV [submit id (.error e)]) t = .error e := by
  simp [wait, submit, computeVal, listV, Bind.bind, Except.bind]

/-- C3 counterexample: waiting on a Future whose function raised
ValueError x surfaces that raw ValueError itself, which is not a
TaskExecutionError. -/
theorem C3_counterexample :
    wait fenvTriv (listV [submit 0 (.error (.valueError "x"))]) none
      = .error (.valueError "x") ∧
    isTaskExecError (.valueError "x") = false :=
  ⟨rfl, rfl⟩

/-- C4 (amended): calling map with upstream_states equal to None fails
eagerly at call time, before any lazy registration, with an
AssertionError raised by the assert statement. -/
theorem C4_none_upstream_asserts (fid : Nat) (args : Val) (bid : Nat) :
    mapE fid args none bid = .error .assertionError := rfl

/-- C4 counterexample: the eager failure on a None upstream_states is an
AssertionError, not a SubmissionError. -/
theorem C4_counterexample :
    mapE 0 .nilV none 0 = .error .assertionError ∧
    PyErr.assertionError ≠ PyErr.submissionError :=
  ⟨rfl, by decide⟩

/-- C5: wait is idempotent on resolved values: on a fully resolved input
it returns the value unchanged and executes no delayed node at all (the
execution trace is empty), so a second wait on an already-resolved Future
returns the same value without re-executing the wrapped function. -/
theorem C5_wait_idempotent_on_resolved (fenv : FEnv) (v : Val)
    (t : Option Int) (h : noPendingB v = true) :
    wait fenv v t = .ok (v, []) := by
  have hc := computeVal_noPending fenv v h
  simp [wait, hc, Bind.bind, Except.bind]

/-- C5 witness: a resolved singleton list passes through wait unchanged
with an empty execution trace. -/
theorem C5_witness :
    noPendingB (listV [Val.int 42]) = true ∧
    wait fenvTriv (listV [Val.int 42]) none = .ok (listV [Val.int 42], []) :=
  ⟨rfl, C5_wait_idempotent_on_resolved fenvTriv (listV [Val.int 42]) none rfl⟩

/-- C8: the scoped start context restores the previous backend
configuration on every exit path: whatever the body does, also when it
raises (returns an error), the configuration after the scope is exactly
the configuration from before start, and the body runs under the
synchronous-scheduler setting. -/
theorem C8_start_restores_config {α : Type} (cfg0 : Option String)
    (body : Option String → Except PyErr α × Option String) :
    startE cfg0 body = ((body (some "synchronous")).1, cfg0) := rfl

/-- C10: calling map with an empty (but non-None) upstream_states
dictionary raises eagerly at call time, during the unpacking of the empty
mapping into keys and values, before any Future-collection is returned. -/
theorem C10_empty_upstream_raises (fid : Nat) (args : Val) (bid : Nat) :
    mapE fid args (some []) bid
      = .error (.valueError "not enough values to unpack (expected 2, got 0)") := rfl

theorem updateBag_length (bid : Nat) (us : List (Edge × Val)) :
    (updateBag bid us).length = us.length := by
  induction us generalizing bid with
  | nil => rfl
  | cons hd tl ih => simp [updateBag, ih]

theorem updateBag_getElem? (bid : Nat) (us : List (Edge × Val)) (j : Nat)
    (e : Edge) (v : Val) (h : us[j]? = some (e, v)) :
    (updateBag bid us)[j]? =
      some (if e.mapped && !(isBag v) then (e, Val.bagS2L (bid + j) v)
            else (e, v)) := by
  induction us generalizing bid j with
  | nil => simp at h
  | cons hd tl ih =>
    cases j with
    | zero =>
      simp only [List.getElem?_cons_zero, Option.some.injEq] at h
      subst h
      simp [updateBag]
    | succ n =>
      simp only [List.getElem?_cons_succ] at h
      have := ih (bid + 1) n h
      simp only [updateBag, List.getElem?_cons_succ]
      rw [this]
      have harith : bid + 1 + n = bid + (n + 1) := by omega
      rw [harith]

theorem mapE_ok_shape (fid : Nat) (args : Val) (us : List (Edge × Val))
    (bid : Nat) (v : Val) (us2 : List (Edge × Val))
    (hm : mapE fid args (some us) bid = .ok (v, us2)) :
    us2 = updateBag bid us ∧
      v = .bagFn fid args
        (.bagUnpack (listV (us2.map Prod.snd)) (us2.map Prod.fst)) := by
  simp only [mapE] at hm
  split at hm
  · exact absurd hm (by simp)
  · split at hm
    · rename_i heq hbag
      simp only [Except.ok.injEq, Prod.mk.injEq] at hm
      obtain ⟨hv, hus⟩ := hm
      constructor
      · rw [← hus, heq]
      · rw [← hv, ← hus, heq]
    · exact absurd hm (by simp)

/-- C9: map mutates the upstream-state dictionary in place: the
dictionary the caller observes after map returns has the same entries in
the same order, except that every entry whose Edge is mapped and whose
value is not already a dask bag has its value replaced by the lazily
converted bag from_delayed(delayed(state_to_list)(value)); all other
entries are untouched. -/
theorem C9_map_mutates_upstream_in_place (fid : Nat) (args : Val)
    (us : List (Edge × Val)) (bid : Nat) (v : Val) (us2 : List (Edge × Val))
    (hm : mapE fid args (some us) bid = .ok (v, us2)) :
    us2.length = us.length ∧
    ∀ j (e : Edge) (w : Val), us[j]? = some (e, w) →
      us2[j]? = some (if e.mapped && !(isBag w)
        then (e, Val.bagS2L (bid + j) w) else (e, w)) := by
  obtain ⟨hus, _⟩ := mapE_ok_shape fid args us bid v us2 hm
  subst hus
  exact ⟨updateBag_length bid us, fun j e w h => updateBag_getElem? bid us j e w h⟩

/-- C9 witness: at a concrete call, the entry of the mapped edge is
replaced by the lazily converted bag while the non-mapped entry is left
untouched. -/
theorem C9_witness :
    (updateBag 7 [((⟨0, true⟩ : Edge), Val.int 5), ((⟨1, false⟩ : Edge), Val.int 6)])[0]?
        = some ((⟨0, true⟩ : Edge), Val.bagS2L 7 (Val.int 5)) ∧
    (updateBag 7 [((⟨0, true⟩ : Edge), Val.int 5), ((⟨1, false⟩ : Edge), Val.int 6)])[1]?
        = some ((⟨1, false⟩ : Edge), Val.int 6) := by
  have h := C9_map_mutates_upstream_in_place 0 .nilV
    [((⟨0, true⟩ : Edge), Val.int 5), ((⟨1, false⟩ : Edge), Val.int 6)] 7 _ _ rfl
  exact ⟨h.2 0 ⟨0, true⟩ (Val.int 5) rfl, h.2 1 ⟨1, false⟩ (Val.int 6) rfl⟩

/-- C6: order preservation through map and wait: mapping over an
upstream edge whose value is the three-element list [x1, x2, x3] and then
waiting yields exactly [fn(d1), fn(d2), fn(d3)] in that order, where the
i-th produced element di is the per-element structure carrying exactly
the i-th element of the upstream sequence for the mapped edge; the single
from_delayed node runs exactly once. -/
theorem C6_map_wait_order (fenv : FEnv) (fid : Nat) (args : Val)
    (f : Val → Val) (e1 : Edge) (x1 x2 x3 : Val) (bid : Nat) (t : Option Int)
    (v : Val) (us2 : List (Edge × Val))
    (he : e1.mapped = true)
    (hf : ∀ u, fenv fid args u = .ok (f u))
    (hfres : ∀ u, noPendingB (f u) = true)
    (h1 : noPendingB x1 = true) (h2 : noPendingB x2 = true)
    (h3 : noPendingB x3 = true)
    (hm : mapE fid args (some [(e1, listV [x1, x2, x3])]) bid = .ok (v, us2)) :
    wait fenv v t = .ok (listV [f (unpack_dict_to_bag [x1] [e1]),
      f (unpack_dict_to_bag [x2] [e1]), f (unpack_dict_to_bag [x3] [e1])], [bid]) := by
  have hmap : mapE fid args (some [(e1, listV [x1, x2, x3])]) bid
      = .ok (.bagFn fid args (.bagUnpack (listV [.bagS2L bid (listV [x1, x2, x3])]) [e1]),
             [(e1, .bagS2L bid (listV [x1, x2, x3]))]) := by
    simp [mapE, updateBag, he, isBag, listV]
  rw [hmap] at hm
  simp only [Except.ok.injEq, Prod.mk.injEq] at hm
  obtain ⟨⟨rfl, rfl⟩⟩ := hm
  have i1 := computeVal_noPending fenv x1 h1
  have i2 := computeVal_noPending fenv x2 h2
  have i3 := computeVal_noPending fenv x3 h3
  have hc1 : computeVal fenv
      (Val.bagFn fid args (.bagUnpack (listV [.bagS2L bid (listV [x1, x2, x3])]) [e1]))
      = .ok (listV [f (unpack_dict_to_bag [x1] [e1]),
          f (unpack_dict_to_bag [x2] [e1]), f (unpack_dict_to_bag [x3] [e1])], [bid]) := by
    simp [computeVal, materializeVals, isBag, listV, i1, i2, i3, state_to_list,
      zipCols, seqLens, lenV, atV, applyAll, hf, unpack_dict_to_bag,
      Bind.bind, Except.bind, List.range_succ, List.range_zero]
  have hres : noPendingB (listV [f (unpack_dict_to_bag [x1] [e1]),
      f (unpack_dict_to_bag [x2] [e1]), f (unpack_dict_to_bag [x3] [e1])]) = true := by
    simp [listV, noPendingB, hfres]
  have hid := computeVal_noPending fenv _ hres
  simp [wait, hc1, hid, Bind.bind, Except.bind]

theorem lenV_listV (xs : List Val) : lenV (listV xs) = xs.length := by
  induction xs with
  | nil => rfl
  | cons h t ih => simp [listV, lenV, ih]

theorem atV_listV (xs : List Val) (i : Nat) :
    atV (listV xs) i = xs.getD i .vnone := by
  induction xs generalizing i with
  | nil => cases i <;> rfl
  | cons h t ih =>
    cases i with
    | zero => rfl
    | succ n => simp [listV, atV, ih]

theorem materializeVals_spec (fenv : FEnv) (vs : List Val) (cols : List Col)
    (t : List Nat) (h : materializeVals fenv (listV vs) = .ok (cols, t)) :
    cols.length = vs.length ∧
    ∀ (j : Nat) (w : Val), vs[j]? = some w → isBag w = false →
      cols[j]? = some (Col.single w) := by
  induction vs generalizing cols t with
  | nil =>
    simp only [listV, materializeVals, Except.ok.injEq, Prod.mk.injEq] at h
    obtain ⟨rfl, rfl⟩ := h
    refine ⟨rfl, ?_⟩
    intro j w hw
    simp at hw
  | cons v rest ih =>
    simp only [listV, materializeVals] at h
    split at h
    · rename_i hbv
      cases hcv : computeVal fenv v with
      | error e => rw [hcv] at h; simp [Bind.bind, Except.bind] at h
      | ok p =>
        obtain ⟨xs, tx⟩ := p
        rw [hcv] at h
        simp only [Bind.bind, Except.bind] at h
        cases hmr : materializeVals fenv (listV rest) with
        | error e => rw [hmr] at h; simp at h
        | ok q =>
          obtain ⟨cs, ts⟩ := q
          rw [hmr] at h
          simp only [Except.ok.injEq, Prod.mk.injEq] at h
          obtain ⟨rfl, rfl⟩ := h
          obtain ⟨hl, hg⟩ := ih cs ts hmr
          refine ⟨by simp [hl], ?_⟩
          intro j w hw hnb
          cases j with
          | zero =>
            simp only [List.getElem?_cons_zero, Option.some.injEq] at hw
            subst hw
            rw [hbv] at hnb
            cases hnb
          | succ n =>
            simp only [List.getElem?_cons_succ] at hw ⊢
            exact hg n w hw hnb
    · rename_i hbv
      cases hmr : materializeVals fenv (listV rest) with
      | error e => rw [hmr] at h; simp [Bind.bind, Except.bind] at h
      | ok q =>
        obtain ⟨cs, ts⟩ := q
        rw [hmr] at h
        simp only [Bind.bind, Except.bind, Except.ok.injEq, Prod.mk.injEq] at h
        obtain ⟨rfl, rfl⟩ := h
        obtain ⟨hl, hg⟩ := ih cs ts hmr
        refine ⟨by simp [hl], ?_⟩
        intro j w hw hnb
        cases j with
        | zero =>
          simp only [List.getElem?_cons_zero, Option.some.injEq] at hw
          subst hw
          simp
        | succ n =>
          simp only [List.getElem?_cons_succ] at hw ⊢
          exact hg n w hw hnb

theorem zipCols_shape (keys : List Edge) (cols : List Col) (ev : Val)
    (h : zipCols keys cols = .ok ev) :
    ∃ n, ev = listV ((List.range n).map (fun i => unpack_dict_to_bag
      (cols.map fun c => atV
        (match c with | .single v => .consV v .nilV | .seq xs => xs)
        (match c with | .single _ => 0 | .seq _ => i)) keys)) := by
  simp only [zipCols] at h
  split at h
  · exact absurd h (by simp)
  · split at h
    · rename_i hall
      simp only [Except.ok.injEq] at h
      exact ⟨_, h.symm⟩
    · exact absurd h (by simp)

/-- C7 (amended): for every call to map and every non-mapped Edge in
upstream_states whose value is not already a dask bag, that value is
broadcast unchanged to every element produced by the unpack stage: each
per-element structure produced by materializing the combined
mapped-collection contains, at the position of that Edge, the pair of the
Edge and its whole upstream value, identical across all elements. -/
theorem C7_nonmapped_broadcast (fenv : FEnv) (fid : Nat) (args : Val)
    (us : List (Edge × Val)) (bid : Nat) (v : Val) (us2 : List (Edge × Val))
    (hm : mapE fid args (some us) bid = .ok (v, us2))
    (j : Nat) (e : Edge) (w : Val)
    (hj : us[j]? = some (e, w)) (hnm : e.mapped = false) (hnb : isBag w = false)
    (ev : Val) (tr : List Nat)
    (hz : computeVal fenv (.bagUnpack (listV (us2.map Prod.snd)) (us2.map Prod.fst))
      = .ok (ev, tr))
    (i : Nat) (hi : i < lenV ev) :
    ∃ l : List Val, atV ev i = listV l ∧
      l[j]? = some (Val.pair (.edgeV e) w) := by
  obtain ⟨hus, hv⟩ := mapE_ok_shape fid args us bid v us2 hm
  have hj2 : us2[j]? = some (e, w) := by
    rw [hus, updateBag_getElem? bid us j e w hj]
    simp [hnm]
  simp only [computeVal] at hz
  cases hmv : materializeVals fenv (listV (us2.map Prod.snd)) with
  | error e2 => rw [hmv] at hz; simp [Bind.bind, Except.bind] at hz
  | ok p =>
    obtain ⟨cols, t0⟩ := p
    rw [hmv] at hz
    simp only [Bind.bind, Except.bind] at hz
    cases hzc : zipCols (us2.map Prod.fst) cols with
    | error e2 => rw [hzc] at hz; simp at hz
    | ok ev2 =>
      rw [hzc] at hz
      simp only [Except.ok.injEq, Prod.mk.injEq] at hz
      obtain ⟨rfl, rfl⟩ := hz
      obtain ⟨hcl, hcg⟩ := materializeVals_spec fenv (us2.map Prod.snd) cols t0 hmv
      have hvj : (us2.map Prod.snd)[j]? = some w := by
        simp only [List.getElem?_map, hj2]
        rfl
      have hcolj : cols[j]? = some (Col.single w) := hcg j w hvj hnb
      have hkj : (us2.map Prod.fst)[j]? = some e := by
        simp only [List.getElem?_map, hj2]
        rfl
      obtain ⟨n, hev⟩ := zipCols_shape (us2.map Prod.fst) cols ev2 hzc
      subst hev
      rw [lenV_listV, List.length_map, List.length_range] at hi
      rw [atV_listV]
      have hgetd : ((List.range n).map (fun i => unpack_dict_to_bag
          (cols.map fun c => atV
            (match c with | .single v => .consV v .nilV | .seq xs => xs)
            (match c with | .single _ => 0 | .seq _ => i)) (us2.map Prod.fst))).getD i .vnone
          = unpack_dict_to_bag
            (cols.map fun c => atV
              (match c with | .single v => .consV v .nilV | .seq xs => xs)
              (match c with | .single _ => 0 | .seq _ => i)) (us2.map Prod.fst) := by
        rw [List.getD_eq_getElem _ _ (by simpa using hi)]
        simp
      rw [hgetd]
      refine ⟨_, rfl, ?_⟩
      rw [unpack_dict_to_bag] at *
      exact List.getElem?_zipWith_eq_some.mpr ⟨e, w, hkj, by simp [hcolj, atV], rfl⟩

/-- C6 witness: mapping over the concrete upstream list [1, 2, 3]. -/
theorem C6_witness :
    wait fenvTriv (Val.bagFn 0 .nilV (.bagUnpack
        (listV [.bagS2L 3 (listV [.int 1, .int 2, .int 3])]) [⟨5, true⟩])) none
      = .ok (listV [.vnone, .vnone, .vnone], [3]) :=
  C6_map_wait_order fenvTriv 0 .nilV (fun _ => .vnone) ⟨5, true⟩
    (.int 1) (.int 2) (.int 3) 3 none
    (Val.bagFn 0 .nilV (.bagUnpack
      (listV [.bagS2L 3 (listV [.int 1, .int 2, .int 3])]) [⟨5, true⟩]))
    [(⟨5, true⟩, .bagS2L 3 (listV [.int 1, .int 2, .int 3]))]
    rfl (fun _ => rfl) (fun _ => rfl) rfl rfl rfl rfl

/-- C7 witness: a non-mapped edge holding the plain value 6 next to a
mapped edge over [1, 2]: element 0 of the combined collection carries the
whole value 6 for that edge. -/
theorem C7_witness :
    ∃ l : List Val,
      atV (listV [
        listV [.pair (.edgeV ⟨0, true⟩) (.int 1), .pair (.edgeV ⟨1, false⟩) (.int 6)],
        listV [.pair (.edgeV ⟨0, true⟩) (.int 2), .pair (.edgeV ⟨1, false⟩) (.int 6)]]) 0
        = listV l ∧
      l[1]? = some (Val.pair (.edgeV ⟨1, false⟩) (.int 6)) :=
  C7_nonmapped_broadcast fenvTriv 0 .nilV
    [((⟨0, true⟩ : Edge), listV [.int 1, .int 2]), ((⟨1, false⟩ : Edge), Val.int 6)] 0
    (Val.bagFn 0 .nilV (.bagUnpack
      (listV [.bagS2L 0 (listV [.int 1, .int 2]), .int 6]) [⟨0, true⟩, ⟨1, false⟩]))
    [(⟨0, true⟩, .bagS2L 0 (listV [.int 1, .int 2])), (⟨1, false⟩, .int 6)]
    rfl 1 ⟨1, false⟩ (.int 6) rfl rfl rfl
    (listV [
      listV [.pair (.edgeV ⟨0, true⟩) (.int 1), .pair (.edgeV ⟨1, false⟩) (.int 6)],
      listV [.pair (.edgeV ⟨0, true⟩) (.int 2), .pair (.edgeV ⟨1, false⟩) (.int 6)]])
    [0] rfl 0 (by decide)

/-- C7 counterexample: a non-mapped Edge whose upstream value is already
a dask bag is zipped elementwise by dask.bag.map rather than broadcast
whole: element 0 of the combined collection receives 7 and element 1
receives 8 for that edge, not the whole bag value, so the values are
neither the upstream value nor identical across elements. -/
theorem C7_counterexample :
    mapE 0 .nilV (some [((⟨0, true⟩ : Edge), listV [.int 1, .int 2]),
        ((⟨1, false⟩ : Edge), Val.bagS2L 9 (listV [.int 7, .int 8]))]) 0
      = .ok (.bagFn 0 .nilV (.bagUnpack (listV [.bagS2L 0 (listV [.int 1, .int 2]),
          .bagS2L 9 (listV [.int 7, .int 8])]) [⟨0, true⟩, ⟨1, false⟩]),
        [(⟨0, true⟩, .bagS2L 0 (listV [.int 1, .int 2])),
         (⟨1, false⟩, .bagS2L 9 (listV [.int 7, .int 8]))]) ∧
    computeVal fenvTriv (.bagUnpack (listV [.bagS2L 0 (listV [.int 1, .int 2]),
        .bagS2L 9 (listV [.int 7, .int 8])]) [⟨0, true⟩, ⟨1, false⟩])
      = .ok (listV [
          listV [.pair (.edgeV ⟨0, true⟩) (.int 1), .pair (.edgeV ⟨1, false⟩) (.int 7)],
          listV [.pair (.edgeV ⟨0, true⟩) (.int 2), .pair (.edgeV ⟨1, false⟩) (.int 8)]],
        [0, 9]) ∧
    Val.int 7 ≠ Val.bagS2L 9 (listV [.int 7, .int 8]) ∧
    Val.int 7 ≠ Val.int 8 :=
  ⟨rfl, rfl, by decide, by decide⟩

end PrefectSync
